import Mathlib

/-!
Verification development for the Veil-Stack repository.

Part A embeds the dashboard hook `useCanteenWagmi` from
`packages/nextjs/hooks/canteen-example/useCanteenWagmi.tsx`: the state the
image actions manipulate, the `addImage` / `removeImage` actions with their
guard, try/catch and finally blocks, the exposed count values, and the
member-list fetch.

Part B models the orchestration core described by the design document
(membership protocol, encrypted scheduler, ledger anchoring).  That core has
no source under the repository tree — only the design document describes it —
so its definitions are modelled from the spec and are marked as such.
-/

namespace Canteen

/-- Hook state touched by the image actions of `useCanteenWagmi`: the status
`message`, the `isProcessing` flag, the `refreshTrigger` counter, and an
instrumentation counter `writeCalls` recording how many times
`writeContractAsync` has been invoked (a write call is a submitted
transaction attempt). -/
structure HookState where
  message : String
  isProcessing : Bool
  refreshTrigger : Nat
  writeCalls : Nat
deriving Repr, DecidableEq

/-- Outcome of the underlying `writeContractAsync` call: a transaction hash on
success, or a thrown error whose `message` field may be absent (the source
reads `error.message || "Failed to ..."`). -/
inductive WriteResult where
  | ok (tx : String)
  | err (msg : Option String)
deriving Repr, DecidableEq

/-- `addImage` from `useCanteenWagmi.tsx` (lines 156-185).  The guard
`!canteenContract || !writeContractAsync` returns early with the message
"Contract not available"; otherwise the hook sets `isProcessing`, posts the
progress message, performs the contract write (counted in `writeCalls`),
catches any thrown error into an error message, and the `finally` block
clears `isProcessing`.  The `Except` codomain records whether an exception
escapes to the caller: the source catches everything, so every branch is
`Except.ok`. -/
def addImage (contractAvail writeAvail : Bool) (write : WriteResult)
    (s : HookState) : Except String HookState :=
  if !(contractAvail && writeAvail) then
    Except.ok { s with message := "Contract not available" }
  else
    let s1 : HookState :=
      { s with isProcessing := true, message := "Adding image...",
               writeCalls := s.writeCalls + 1 }
    match write with
    | WriteResult.ok tx =>
        Except.ok { s1 with message := "Image added! Tx: " ++ tx,
                            refreshTrigger := s1.refreshTrigger + 1,
                            isProcessing := false }
    | WriteResult.err m =>
        Except.ok { s1 with message := "Error: " ++ m.getD "Failed to add image",
                            isProcessing := false }

/-- `removeImage` from `useCanteenWagmi.tsx` (lines 188-217); same shape as
`addImage` with the remove-specific messages. -/
def removeImage (contractAvail writeAvail : Bool) (write : WriteResult)
    (s : HookState) : Except String HookState :=
  if !(contractAvail && writeAvail) then
    Except.ok { s with message := "Contract not available" }
  else
    let s1 : HookState :=
      { s with isProcessing := true, message := "Removing image...",
               writeCalls := s.writeCalls + 1 }
    match write with
    | WriteResult.ok tx =>
        Except.ok { s1 with message := "Image removed! Tx: " ++ tx,
                            refreshTrigger := s1.refreshTrigger + 1,
                            isProcessing := false }
    | WriteResult.err m =>
        Except.ok { s1 with message := "Error: " ++ m.getD "Failed to remove image",
                            isProcessing := false }

/-- The exposed `membersCount` / `imagesCount` value (lines 226-227 of the
hook): `count ? Number(count) : 0`.  An undefined read (`none`) and the bigint
zero are both falsy and yield `0`; any other value is passed through its
numeric conversion. -/
def exposedCount (raw : Option Nat) : Nat :=
  match raw with
  | none => 0
  | some n => if n = 0 then 0 else n

/-- `fetchMembers` from the hook (lines 75-96): when the contract info is
missing or the members count is falsy the effect returns without updating
state (`none`); otherwise it builds the placeholder list whose entry `i` is
the literal string `"Member i"`.  The loop body performs no contract read —
the function depends only on the availability flag and the count. -/
def fetchMembers (contractAvail : Bool) (membersCount : Option Nat) :
    Option (List String) :=
  match contractAvail, membersCount with
  | true, some c =>
      if c = 0 then none
      else some ((List.range c).map (fun i => "Member " ++ toString i))
  | _, _ => none

/-! ### Part B: the orchestration core, modelled from the spec -/

/-- Modelled from the spec: §4.2 Telemetry & Encrypted Scheduler (missing from
the repository tree).  A node as the scheduler sees it: public id, advertised
capacity (replica slots, also the replica-per-node limit), current load, and
the running count of replicas assigned during the evaluation. -/
structure SchedNode where
  id : Nat
  capacity : Nat
  load : Nat
  assigned : Nat
deriving Repr, DecidableEq

/-- A node is a placement candidate while it is not yet at its
replica-per-node limit. -/
def eligible (n : SchedNode) : Bool :=
  n.assigned < n.capacity

/-- Encrypted running load of a node during an evaluation: its telemetry load
plus the replicas assigned so far in this round. -/
def runningLoad (n : SchedNode) : Nat :=
  n.load + n.assigned

/-- `a` strictly precedes `b` in the least-loaded-first order: smaller
load/capacity ratio (compared by cross-multiplication, so no division is
needed), with ties broken by the fixed public order on node ids. -/
def schedBefore (a b : SchedNode) : Bool :=
  runningLoad a * b.capacity < runningLoad b * a.capacity ||
    (runningLoad a * b.capacity == runningLoad b * a.capacity && a.id < b.id)

/-- Best node of a candidate list under `schedBefore`. -/
def pickBest : List SchedNode → Option SchedNode
  | [] => none
  | n :: ns =>
    match pickBest ns with
    | none => some n
    | some m => if schedBefore n m then some n else some m

/-- Assign one more replica to the node carrying the given id. -/
def assignOne (nid : Nat) (ns : List SchedNode) : List SchedNode :=
  ns.map (fun n => if n.id = nid then { n with assigned := n.assigned + 1 } else n)

/-- Modelled from the spec: the packing loop of `evaluateSchedule` — repeat
until all replicas are placed (select the eligible node of minimum
load/capacity ratio, assign one replica, update its running load) or no node
satisfies the constraints, in which case the whole evaluation terminates with
the explicit UNSATISFIABLE result (`none`), never a partial assignment. -/
def placeReplicas : Nat → List SchedNode → Option (List SchedNode)
  | 0, ns => some ns
  | r + 1, ns =>
    match pickBest (ns.filter eligible) with
    | none => none
    | some m => placeReplicas r (assignOne m.id ns)

/-- Modelled from the spec: `evaluateSchedule request ciphertexts` — evaluate
the least-loaded-first packing for a request of `replicas` replicas over the
given nodes, starting from a clean assignment. -/
def evaluateSchedule (nodes : List SchedNode) (replicas : Nat) :
    Option (List SchedNode) :=
  placeReplicas replicas (nodes.map (fun n => { n with assigned := 0 }))

/-- Total number of replicas assigned so far. -/
def sumAssigned (ns : List SchedNode) : Nat :=
  (ns.map SchedNode.assigned).sum

/-- Aggregate advertised capacity. -/
def sumCapacity (ns : List SchedNode) : Nat :=
  (ns.map SchedNode.capacity).sum

/-- Modelled from the spec: §4.3 Ledger Sync — the commitment hash is a
deterministic encoding of the request id and the assignment contents
(node id ↦ replica count pairs). -/
def commitmentHash (requestId : Nat) (contents : List (Nat × Nat)) : Nat :=
  contents.foldl (fun acc p => (acc * 1000003 + p.1) * 1000003 + p.2) requestId

/-- Modelled from the spec: the ledger-side anchor contract.  The ledger state
is the list of confirmed commitment hashes; resubmitting an already-present
hash is a no-op rather than a duplicate record. -/
def anchorAssignment (ledger : List Nat) (h : Nat) : List Nat :=
  if h ∈ ledger then ledger else h :: ledger

/-- Liveness states of the membership protocol. -/
inductive LivenessState where
  | alive
  | suspect
  | dead
deriving Repr, DecidableEq

/-- State precedence DEAD > SUSPECT > ALIVE, used to break ties between
conflicting reports carrying the same incarnation number. -/
def statePrec : LivenessState → Nat
  | LivenessState.alive => 0
  | LivenessState.suspect => 1
  | LivenessState.dead => 2

/-- Modelled from the spec: one node's Cluster View entry for a peer —
liveness state, incarnation number, and the round at which the peer entered
SUSPECT (meaningful while the state is SUSPECT). -/
structure ViewEntry where
  st : LivenessState
  inc : Nat
  suspectedAt : Nat
deriving Repr, DecidableEq

/-- Modelled from the spec: a gossip report about a peer, carrying the claimed
state and the incarnation number under which it is claimed. -/
structure GossipReport where
  st : LivenessState
  inc : Nat
deriving Repr, DecidableEq

/-- Modelled from the spec: `handleGossip` conflict resolution for a single
entry.  The incoming report wins when it carries a strictly higher
incarnation number, or the same incarnation and a state of strictly higher
precedence (DEAD > SUSPECT > ALIVE); otherwise the local entry stands.  When
a report makes the entry SUSPECT the current round is recorded. -/
def handleGossip (round : Nat) (e : ViewEntry) (r : GossipReport) : ViewEntry :=
  if e.inc < r.inc ∨ (e.inc = r.inc ∧ statePrec e.st < statePrec r.st) then
    { st := r.st, inc := r.inc,
      suspectedAt := if r.st = LivenessState.suspect then round else e.suspectedAt }
  else e

/-- Modelled from the spec: one failure-detector round processed with no
refutation observed — a SUSPECT entry whose grace period `K` has elapsed by
`round` is promoted to DEAD; all other entries are untouched. -/
def tickRound (K round : Nat) (e : ViewEntry) : ViewEntry :=
  if e.st = LivenessState.suspect ∧ e.suspectedAt + K ≤ round then
    { e with st := LivenessState.dead }
  else e

/-- Rounds applied in order to one view entry, with no refutation observed. -/
def runRounds (K : Nat) (e : ViewEntry) : List Nat → ViewEntry
  | [] => e
  | r :: rs => runRounds K (tickRound K r e) rs

/-- Membership-registry record for one node of the cluster. -/
structure MemberNode where
  id : Nat
  inc : Nat
  st : LivenessState
deriving Repr, DecidableEq

/-- Modelled from the spec: the membership-protocol operations that mutate the
node table — first join, suspicion, refutation (which bumps the incarnation),
death, and the rejoin of a DEAD node under a fresh identity. -/
inductive MembershipOp where
  | join (nid : Nat)
  | suspectNode (nid : Nat)
  | refute (nid : Nat)
  | markDead (nid : Nat)
  | rejoin (oldId newId : Nat)
deriving Repr, DecidableEq

/-- Ids present in a node table. -/
def nodeIds (tbl : List MemberNode) : List Nat :=
  tbl.map MemberNode.id

/-- Modelled from the spec: §3/§4.1 — apply one membership operation to the
node table.  Nodes are never deleted, only marked DEAD; `join` refuses an id
already present; `refute` raises the incarnation; `rejoin` adds a fresh
identity with a strictly higher incarnation, and only for a DEAD node. -/
def applyOp (tbl : List MemberNode) : MembershipOp → List MemberNode
  | MembershipOp.join nid =>
    if nid ∈ nodeIds tbl then tbl
    else { id := nid, inc := 0, st := LivenessState.alive } :: tbl
  | MembershipOp.suspectNode nid =>
    tbl.map fun n =>
      if n.id = nid ∧ n.st = LivenessState.alive then
        { n with st := LivenessState.suspect } else n
  | MembershipOp.refute nid =>
    tbl.map fun n =>
      if n.id = nid ∧ n.st = LivenessState.suspect then
        { n with st := LivenessState.alive, inc := n.inc + 1 } else n
  | MembershipOp.markDead nid =>
    tbl.map fun n =>
      if n.id = nid ∧ n.st = LivenessState.suspect then
        { n with st := LivenessState.dead } else n
  | MembershipOp.rejoin oldId newId =>
    match tbl.find? (fun n => decide (n.id = oldId ∧ n.st = LivenessState.dead)) with
    | some old =>
      if newId ∈ nodeIds tbl then tbl
      else { id := newId, inc := old.inc + 1, st := LivenessState.alive } :: tbl
    | none => tbl

/-! ### Scheduler lemmas -/

theorem pickBest_mem {l : List SchedNode} {m : SchedNode}
    (h : pickBest l = some m) : m ∈ l := by
  induction l with
  | nil => simp [pickBest] at h
  | cons n ns ih =>
    simp only [pickBest] at h
    cases hp : pickBest ns with
    | none =>
      rw [hp] at h
      simp only [Option.some.injEq] at h
      exact h ▸ List.mem_cons_self n ns
    | some b =>
      rw [hp] at h
      cases hb : schedBefore n b with
      | true =>
        simp [hb] at h
        exact h ▸ List.mem_cons_self n ns
      | false =>
        simp [hb] at h
        exact List.mem_cons_of_mem n (ih (by rw [hp, h]))

theorem pickBest_ne_none {l : List SchedNode} (h : l ≠ []) :
    ∃ m, pickBest l = some m := by
  cases l with
  | nil => exact absurd rfl h
  | cons n ns =>
    simp only [pickBest]
    cases hp : pickBest ns with
    | none => exact ⟨n, rfl⟩
    | some b =>
      cases hb : schedBefore n b with
      | true => exact ⟨n, by simp [hb]⟩
      | false => exact ⟨b, by simp [hb]⟩

theorem assignOne_map_id (nid : Nat) (ns : List SchedNode) :
    (assignOne nid ns).map SchedNode.id = ns.map SchedNode.id := by
  induction ns with
  | nil => rfl
  | cons n t ih =>
    by_cases h : n.id = nid
    · simpa [assignOne, h] using ih
    · simpa [assignOne, h] using ih

theorem assignOne_sumCapacity (nid : Nat) (ns : List SchedNode) :
    sumCapacity (assignOne nid ns) = sumCapacity ns := by
  induction ns with
  | nil => rfl
  | cons n t ih =>
    by_cases h : n.id = nid
    · simpa [assignOne, sumCapacity, h] using ih
    · simpa [assignOne, sumCapacity, h] using ih

theorem assignOne_not_mem : ∀ {ns : List SchedNode} {nid : Nat},
    nid ∉ ns.map SchedNode.id → assignOne nid ns = ns
  | [], _, _ => rfl
  | n :: t, nid, h => by
    have h1 : ¬ n.id = nid := fun he => h (by simp [he])
    have h2 : nid ∉ t.map SchedNode.id := fun hm => h (by simp [hm])
    calc assignOne nid (n :: t)
        = (if n.id = nid then { n with assigned := n.assigned + 1 } else n)
            :: assignOne nid t := rfl
      _ = n :: t := by rw [if_neg h1, assignOne_not_mem h2]

theorem sumAssigned_cons (n : SchedNode) (l : List SchedNode) :
    sumAssigned (n :: l) = n.assigned + sumAssigned l := rfl

theorem assignOne_cons (nid : Nat) (n : SchedNode) (l : List SchedNode) :
    assignOne nid (n :: l) =
      (if n.id = nid then { n with assigned := n.assigned + 1 } else n)
        :: assignOne nid l := rfl

theorem assignOne_sumAssigned : ∀ {ns : List SchedNode} {nid : Nat},
    (ns.map SchedNode.id).Nodup → nid ∈ ns.map SchedNode.id →
    sumAssigned (assignOne nid ns) = sumAssigned ns + 1
  | [], nid, _, hm => by simp at hm
  | n :: t, nid, hnd, hm => by
    have hnd2 : (∀ x ∈ t, ¬ x.id = n.id) ∧ (t.map SchedNode.id).Nodup := by
      simpa using hnd
    by_cases he : n.id = nid
    · have hnotin : nid ∉ t.map SchedNode.id := by
        intro hmem
        rcases List.mem_map.mp hmem with ⟨x, hx, hxid⟩
        exact hnd2.1 x hx (by rw [hxid, ← he])
      rw [assignOne_cons, if_pos he, assignOne_not_mem hnotin,
          sumAssigned_cons, sumAssigned_cons]
      show n.assigned + 1 + sumAssigned t = n.assigned + sumAssigned t + 1
      omega
    · have hmt : nid ∈ t.map SchedNode.id := by
        rcases (by simpa using hm : nid = n.id ∨ nid ∈ t.map SchedNode.id) with h1 | h2
        · exact absurd h1.symm he
        · exact h2
      rw [assignOne_cons, if_neg he, sumAssigned_cons, sumAssigned_cons,
          assignOne_sumAssigned hnd2.2 hmt]
      omega

theorem exists_eligible {ns : List SchedNode}
    (h : sumAssigned ns < sumCapacity ns) : ∃ n ∈ ns, eligible n = true := by
  by_contra hc
  push_neg at hc
  have hle : sumCapacity ns ≤ sumAssigned ns := by
    unfold sumCapacity sumAssigned
    apply List.sum_le_sum
    intro n hn
    have := hc n hn
    simp [eligible] at this
    omega
  omega

theorem assignOne_bound {nid : Nat} {ns : List SchedNode}
    (hb : ∀ n ∈ ns, n.assigned ≤ n.capacity)
    (helig : ∀ n ∈ ns, n.id = nid → n.assigned < n.capacity) :
    ∀ n ∈ assignOne nid ns, n.assigned ≤ n.capacity := by
  intro m hm
  rcases List.mem_map.mp hm with ⟨n, hn, rfl⟩
  by_cases he : n.id = nid
  · have := helig n hn he
    simp [he]
    omega
  · have := hb n hn
    simp [he]
    omega

theorem placeReplicas_complete : ∀ (r : Nat) (ns : List SchedNode),
    (ns.map SchedNode.id).Nodup →
    (∀ n ∈ ns, n.assigned ≤ n.capacity) →
    sumAssigned ns + r ≤ sumCapacity ns →
    ∃ ns2, placeReplicas r ns = some ns2 ∧ sumAssigned ns2 = sumAssigned ns + r
  | 0, ns, _, _, _ => ⟨ns, rfl, by simp⟩
  | r + 1, ns, hnd, hb, hcap => by
    have hlt : sumAssigned ns < sumCapacity ns := by omega
    obtain ⟨n0, hn0, heg⟩ := exists_eligible hlt
    have hfil : n0 ∈ ns.filter eligible := List.mem_filter.mpr ⟨hn0, heg⟩
    obtain ⟨m, hpick⟩ := pickBest_ne_none (List.ne_nil_of_mem hfil)
    have hmf := pickBest_mem hpick
    have hmns : m ∈ ns := (List.mem_filter.mp hmf).1
    have hmel : eligible m = true := (List.mem_filter.mp hmf).2
    have hmid : m.id ∈ ns.map SchedNode.id := List.mem_map_of_mem _ hmns
    have hnd2 : ((assignOne m.id ns).map SchedNode.id).Nodup := by
      rw [assignOne_map_id]; exact hnd
    have hb2 : ∀ n ∈ assignOne m.id ns, n.assigned ≤ n.capacity := by
      apply assignOne_bound hb
      intro n hn hid
      have hnm : n = m := List.inj_on_of_nodup_map hnd hn hmns (by rw [hid])
      subst hnm
      simpa [eligible] using hmel
    have hsum2 : sumAssigned (assignOne m.id ns) = sumAssigned ns + 1 :=
      assignOne_sumAssigned hnd hmid
    have hcap2 : sumAssigned (assignOne m.id ns) + r ≤
        sumCapacity (assignOne m.id ns) := by
      rw [hsum2, assignOne_sumCapacity]; omega
    obtain ⟨ns2, hrun, hsum⟩ :=
      placeReplicas_complete r (assignOne m.id ns) hnd2 hb2 hcap2
    refine ⟨ns2, ?_, ?_⟩
    · simp only [placeReplicas]
      rw [hpick]
      exact hrun
    · rw [hsum, hsum2]; omega

theorem placeReplicas_sound : ∀ (r : Nat) (ns ns2 : List SchedNode),
    (ns.map SchedNode.id).Nodup →
    (∀ n ∈ ns, n.assigned ≤ n.capacity) →
    placeReplicas r ns = some ns2 →
    sumAssigned ns2 = sumAssigned ns + r ∧ sumCapacity ns2 = sumCapacity ns ∧
      (∀ n ∈ ns2, n.assigned ≤ n.capacity)
  | 0, ns, ns2, _, hb, h => by
    simp only [placeReplicas, Option.some.injEq] at h
    subst h
    exact ⟨by simp, rfl, hb⟩
  | r + 1, ns, ns2, hnd, hb, h => by
    simp only [placeReplicas] at h
    cases hpick : pickBest (ns.filter eligible) with
    | none => rw [hpick] at h; simp at h
    | some m =>
      rw [hpick] at h
      have hmf := pickBest_mem hpick
      have hmns : m ∈ ns := (List.mem_filter.mp hmf).1
      have hmel : eligible m = true := (List.mem_filter.mp hmf).2
      have hmid : m.id ∈ ns.map SchedNode.id := List.mem_map_of_mem _ hmns
      have hnd2 : ((assignOne m.id ns).map SchedNode.id).Nodup := by
        rw [assignOne_map_id]; exact hnd
      have hb2 : ∀ n ∈ assignOne m.id ns, n.assigned ≤ n.capacity := by
        apply assignOne_bound hb
        intro n hn hid
        have hnm : n = m := List.inj_on_of_nodup_map hnd hn hmns (by rw [hid])
        subst hnm
        simpa [eligible] using hmel
      obtain ⟨hs, hc, hbf⟩ :=
        placeReplicas_sound r (assignOne m.id ns) ns2 hnd2 hb2 h
      refine ⟨?_, ?_, hbf⟩
      · rw [hs, assignOne_sumAssigned hnd hmid]; omega
      · rw [hc, assignOne_sumCapacity]

theorem resetFacts (nodes : List SchedNode) :
    (nodes.map (fun n => { n with assigned := 0 })).map SchedNode.id
        = nodes.map SchedNode.id ∧
      sumCapacity (nodes.map (fun n => { n with assigned := 0 }))
        = sumCapacity nodes ∧
      sumAssigned (nodes.map (fun n => { n with assigned := 0 })) = 0 := by
  induction nodes with
  | nil => exact ⟨rfl, rfl, rfl⟩
  | cons n t ih =>
    refine ⟨?_, ?_, ?_⟩
    · simp [Function.comp_def]
    · simp [sumCapacity, Function.comp_def]
    · simp [sumAssigned, Function.comp_def]

theorem sumAssigned_le_sumCapacity {ns : List SchedNode}
    (hb : ∀ n ∈ ns, n.assigned ≤ n.capacity) : sumAssigned ns ≤ sumCapacity ns := by
  unfold sumAssigned sumCapacity
  exact List.sum_le_sum hb

/-! ### Membership lemmas -/

theorem runRounds_append (K : Nat) (e : ViewEntry) (xs ys : List Nat) :
    runRounds K e (xs ++ ys) = runRounds K (runRounds K e xs) ys := by
  induction xs generalizing e with
  | nil => rfl
  | cons r rs ih =>
    show runRounds K (tickRound K r e) (rs ++ ys)
        = runRounds K (runRounds K (tickRound K r e) rs) ys
    exact ih (tickRound K r e)

theorem runRounds_noop (K : Nat) : ∀ (rs : List Nat) (e : ViewEntry),
    (∀ r ∈ rs, r < e.suspectedAt + K) → runRounds K e rs = e
  | [], _, _ => rfl
  | r :: rs, e, h => by
    have hr := h r (List.mem_cons_self r rs)
    have h1 : tickRound K r e = e := by
      unfold tickRound
      rw [if_neg]
      rintro ⟨_, hle⟩
      omega
    show runRounds K (tickRound K r e) rs = e
    rw [h1]
    exact runRounds_noop K rs e (fun x hx => h x (List.mem_cons_of_mem r hx))

theorem range'_snoc (s : Nat) : ∀ n : Nat,
    List.range' s (n + 1) = List.range' s n ++ [s + n]
  | 0 => by simp [List.range']
  | n + 1 => by
    rw [List.range'_succ, range'_snoc (s + 1) n, List.range'_succ]
    simp [Nat.add_assoc, Nat.add_comm 1 n]

theorem nodeIds_map_invariant (f : MemberNode → MemberNode)
    (hid : ∀ n, (f n).id = n.id) (tbl : List MemberNode) :
    nodeIds (tbl.map f) = nodeIds tbl := by
  induction tbl with
  | nil => rfl
  | cons n t ih =>
    simp only [nodeIds, List.map_cons] at ih ⊢
    rw [hid n]
    exact congrArg (List.cons n.id) ih

theorem applyMap_preserves {f : MemberNode → MemberNode}
    (hid : ∀ n, (f n).id = n.id) (hinc : ∀ n, n.inc ≤ (f n).inc)
    {tbl : List MemberNode} (hnd : (nodeIds tbl).Nodup) :
    (nodeIds (tbl.map f)).Nodup ∧
      ∀ n ∈ tbl, ∃ m ∈ tbl.map f, m.id = n.id ∧ n.inc ≤ m.inc := by
  constructor
  · rw [nodeIds_map_invariant f hid]
    exact hnd
  · intro n hn
    exact ⟨f n, List.mem_map_of_mem f hn, hid n, hinc n⟩

theorem applyOp_preserves (tbl : List MemberNode) (op : MembershipOp)
    (hnd : (nodeIds tbl).Nodup) :
    (nodeIds (applyOp tbl op)).Nodup ∧
      ∀ n ∈ tbl, ∃ m ∈ applyOp tbl op, m.id = n.id ∧ n.inc ≤ m.inc := by
  cases op with
  | join nid =>
    by_cases h : nid ∈ nodeIds tbl
    · simp only [applyOp]
      rw [if_pos h]
      exact ⟨hnd, fun n hn => ⟨n, hn, rfl, le_refl _⟩⟩
    · simp only [applyOp]
      rw [if_neg h]
      refine ⟨?_, fun n hn => ⟨n, List.mem_cons_of_mem _ hn, rfl, le_refl _⟩⟩
      simp only [nodeIds, List.map_cons, List.nodup_cons]
      exact ⟨by simpa [nodeIds] using h, hnd⟩
  | suspectNode nid =>
    exact applyMap_preserves
      (fun n => by
        by_cases hc : n.id = nid ∧ n.st = LivenessState.alive <;> simp [hc])
      (fun n => by
        by_cases hc : n.id = nid ∧ n.st = LivenessState.alive <;> simp [hc])
      hnd
  | refute nid =>
    exact applyMap_preserves
      (fun n => by
        by_cases hc : n.id = nid ∧ n.st = LivenessState.suspect <;> simp [hc])
      (fun n => by
        by_cases hc : n.id = nid ∧ n.st = LivenessState.suspect <;> simp [hc])
      hnd
  | markDead nid =>
    exact applyMap_preserves
      (fun n => by
        by_cases hc : n.id = nid ∧ n.st = LivenessState.suspect <;> simp [hc])
      (fun n => by
        by_cases hc : n.id = nid ∧ n.st = LivenessState.suspect <;> simp [hc])
      hnd
  | rejoin oldId newId =>
    simp only [applyOp]
    cases hf : tbl.find? (fun n => decide (n.id = oldId ∧ n.st = LivenessState.dead)) with
    | none => exact ⟨hnd, fun n hn => ⟨n, hn, rfl, le_refl _⟩⟩
    | some old =>
      dsimp only
      by_cases h : newId ∈ nodeIds tbl
      · rw [if_pos h]
        exact ⟨hnd, fun n hn => ⟨n, hn, rfl, le_refl _⟩⟩
      · rw [if_neg h]
        refine ⟨?_, fun n hn => ⟨n, List.mem_cons_of_mem _ hn, rfl, le_refl _⟩⟩
        simp only [nodeIds, List.map_cons, List.nodup_cons]
        exact ⟨by simpa [nodeIds] using h, hnd⟩

theorem foldl_applyOp_preserves : ∀ (ops : List MembershipOp) (tbl : List MemberNode),
    (nodeIds tbl).Nodup →
    (nodeIds (ops.foldl applyOp tbl)).Nodup ∧
      ∀ n ∈ tbl, ∃ m ∈ ops.foldl applyOp tbl, m.id = n.id ∧ n.inc ≤ m.inc
  | [], tbl, hnd => ⟨hnd, fun n hn => ⟨n, hn, rfl, le_refl _⟩⟩
  | op :: ops, tbl, hnd => by
    obtain ⟨hnd1, hstep⟩ := applyOp_preserves tbl op hnd
    obtain ⟨hndF, hF⟩ := foldl_applyOp_preserves ops (applyOp tbl op) hnd1
    refine ⟨hndF, ?_⟩
    intro n hn
    obtain ⟨m1, hm1, hid1, hinc1⟩ := hstep n hn
    obtain ⟨m2, hm2, hid2, hinc2⟩ := hF m1 hm1
    exact ⟨m2, hm2, by rw [hid2, hid1], le_trans hinc1 hinc2⟩

theorem rejoin_fresh (tbl : List MemberNode) (oldId newId : Nat)
    (m : MemberNode) (hm : m ∈ applyOp tbl (MembershipOp.rejoin oldId newId))
    (hnotin : m ∉ tbl) :
    m.id = newId ∧ m.id ∉ nodeIds tbl ∧
      ∃ old ∈ tbl, old.id = oldId ∧ old.st = LivenessState.dead ∧ old.inc < m.inc := by
  simp only [applyOp] at hm
  cases hf : tbl.find? (fun n => decide (n.id = oldId ∧ n.st = LivenessState.dead)) with
  | none => rw [hf] at hm; exact absurd hm hnotin
  | some old =>
    rw [hf] at hm
    dsimp only at hm
    by_cases h : newId ∈ nodeIds tbl
    · rw [if_pos h] at hm
      exact absurd hm hnotin
    · rw [if_neg h] at hm
      rcases List.mem_cons.mp hm with rfl | hmem
      · have hold_mem : old ∈ tbl := List.mem_of_find?_eq_some hf
        have hold_p := List.find?_some hf
        simp only [decide_eq_true_eq] at hold_p
        exact ⟨rfl, h, old, hold_mem, hold_p.1, hold_p.2, Nat.lt_succ_self _⟩
      · exact absurd hmem hnotin

/-! ### Claim theorems -/

/-- C1: for node tables with unique ids, a request whose aggregate advertised
capacity covers the requested replica count yields an assignment; a request it
cannot cover yields the explicit UNSATISFIABLE result (`none`); and every
assignment ever produced places exactly the requested number of replicas, so
no partial assignment (replica sum strictly between 0 and the request) is
ever produced. -/
theorem C1_schedule_exact_or_unsatisfiable (nodes : List SchedNode) (r : Nat)
    (hids : (nodes.map SchedNode.id).Nodup) :
    (r ≤ sumCapacity nodes → (evaluateSchedule nodes r).isSome = true) ∧
    (sumCapacity nodes < r → evaluateSchedule nodes r = none) ∧
    (∀ a, evaluateSchedule nodes r = some a → sumAssigned a = r) := by
  obtain ⟨hid0, hcap0, hasg0⟩ := resetFacts nodes
  have hnd0 : ((nodes.map (fun n => { n with assigned := 0 })).map
      SchedNode.id).Nodup := by
    rw [hid0]; exact hids
  have hb0 : ∀ n ∈ nodes.map (fun n => { n with assigned := 0 }),
      n.assigned ≤ n.capacity := by
    intro m hm
    rcases List.mem_map.mp hm with ⟨n, _, rfl⟩
    simp
  refine ⟨?_, ?_, ?_⟩
  · intro hle
    obtain ⟨ns2, hrun, _⟩ :=
      placeReplicas_complete r _ hnd0 hb0 (by rw [hasg0, hcap0]; omega)
    unfold evaluateSchedule
    rw [hrun]
    rfl
  · intro hgt
    cases heval : evaluateSchedule nodes r with
    | none => rfl
    | some a =>
      obtain ⟨hs, hc, hbf⟩ := placeReplicas_sound r _ a hnd0 hb0 heval
      have hle := sumAssigned_le_sumCapacity hbf
      have h1 : sumAssigned a = r := by rw [hs, hasg0]; omega
      have h2 : sumCapacity a = sumCapacity nodes := by rw [hc, hcap0]
      rw [h1, h2] at hle
      exact absurd hle (by omega)
  · intro a heval
    obtain ⟨hs, _, _⟩ := placeReplicas_sound r _ a hnd0 hb0 heval
    rw [hs, hasg0]
    omega

/-- Witness for C1 at concrete inputs: two nodes of capacities 2 and 3; a
request for 4 replicas is satisfiable and exact, a request for 6 is
UNSATISFIABLE. -/
theorem C1_schedule_witness :
    (evaluateSchedule [⟨1, 2, 0, 0⟩, ⟨2, 3, 0, 0⟩] 4).isSome = true ∧
      evaluateSchedule [⟨1, 2, 0, 0⟩, ⟨2, 3, 0, 0⟩] 6 = none :=
  ⟨(C1_schedule_exact_or_unsatisfiable [⟨1, 2, 0, 0⟩, ⟨2, 3, 0, 0⟩] 4
      (by decide)).1 (by decide),
   (C1_schedule_exact_or_unsatisfiable [⟨1, 2, 0, 0⟩, ⟨2, 3, 0, 0⟩] 6
      (by decide)).2.1 (by decide)⟩

/-- C2: anchoring is idempotent — resubmitting the deterministic hash of
(requestId, assignment contents) is a no-op on the ledger, and a fresh hash
anchored twice is visible exactly once. -/
theorem C2_anchor_idempotent (ledger : List Nat) (requestId : Nat)
    (contents : List (Nat × Nat))
    (hnew : commitmentHash requestId contents ∉ ledger) :
    anchorAssignment (anchorAssignment ledger (commitmentHash requestId contents))
        (commitmentHash requestId contents) =
      anchorAssignment ledger (commitmentHash requestId contents) ∧
    (anchorAssignment (anchorAssignment ledger (commitmentHash requestId contents))
        (commitmentHash requestId contents)).count
        (commitmentHash requestId contents) = 1 := by
  set h := commitmentHash requestId contents with hh
  constructor
  · unfold anchorAssignment
    rw [if_neg hnew, if_pos (List.mem_cons_self h ledger)]
  · unfold anchorAssignment
    rw [if_neg hnew, if_pos (List.mem_cons_self h ledger), List.count_cons_self,
        List.count_eq_zero.mpr hnew]

/-- Witness for C2 at a concrete input. -/
theorem C2_anchor_witness :
    anchorAssignment (anchorAssignment [5] (commitmentHash 1 [(2, 3)]))
        (commitmentHash 1 [(2, 3)]) =
      anchorAssignment [5] (commitmentHash 1 [(2, 3)]) ∧
    (anchorAssignment (anchorAssignment [5] (commitmentHash 1 [(2, 3)]))
        (commitmentHash 1 [(2, 3)])).count (commitmentHash 1 [(2, 3)]) = 1 :=
  C2_anchor_idempotent [5] 1 [(2, 3)] (by decide)

/-- C3: a SUSPECT entry is turned ALIVE in any view that receives a refutation
carrying a strictly higher incarnation (before the DEAD timeout, i.e. while
still SUSPECT); and a SUSPECT entry of round `N` that is never refuted is DEAD
after the grace period of `K ≥ 1` rounds, i.e. at round `N + K`, in any view
processing those rounds. -/
theorem C3_suspect_refutes_or_dies (e : ViewEntry) (N K : Nat)
    (hs : e.st = LivenessState.suspect) (hN : e.suspectedAt = N) (hK : 1 ≤ K) :
    (∀ round rinc, e.inc < rinc →
      (handleGossip round e ⟨LivenessState.alive, rinc⟩).st = LivenessState.alive) ∧
    (runRounds K e (List.range' (N + 1) K)).st = LivenessState.dead := by
  constructor
  · intro round rinc hlt
    unfold handleGossip
    rw [if_pos (Or.inl hlt)]
  · obtain ⟨k, rfl⟩ : ∃ k, K = k + 1 := ⟨K - 1, by omega⟩
    rw [range'_snoc, runRounds_append]
    have hno : runRounds (k + 1) e (List.range' (N + 1) k) = e := by
      apply runRounds_noop
      intro x hx
      have hb := List.mem_range'_1.mp hx
      omega
    rw [hno]
    show (tickRound (k + 1) (N + 1 + k) e).st = LivenessState.dead
    unfold tickRound
    rw [if_pos ⟨hs, by omega⟩]

/-- Witness for C3 at a concrete entry: SUSPECT since round 10 with
incarnation 5, grace period 3. -/
theorem C3_suspect_witness :
    (handleGossip 12 ⟨LivenessState.suspect, 5, 10⟩
        ⟨LivenessState.alive, 6⟩).st = LivenessState.alive ∧
      (runRounds 3 ⟨LivenessState.suspect, 5, 10⟩ (List.range' 11 3)).st =
        LivenessState.dead :=
  ⟨(C3_suspect_refutes_or_dies ⟨LivenessState.suspect, 5, 10⟩ 10 3 rfl rfl
      (by decide)).1 12 6 (by decide),
   (C3_suspect_refutes_or_dies ⟨LivenessState.suspect, 5, 10⟩ 10 3 rfl rfl
      (by decide)).2⟩

/-- C4: across any sequence of membership operations on a table with unique
node ids, ids stay unique; every node's id persists for its whole lifetime and
its incarnation number never decreases; and a rejoin of a DEAD node only adds
an entry under a fresh identity with a strictly higher incarnation. -/
theorem C4_identity_and_incarnation (ops : List MembershipOp)
    (tbl : List MemberNode) (hnd : (nodeIds tbl).Nodup) :
    (nodeIds (ops.foldl applyOp tbl)).Nodup ∧
    (∀ n ∈ tbl, ∃ m ∈ ops.foldl applyOp tbl, m.id = n.id ∧ n.inc ≤ m.inc) ∧
    (∀ oldId newId m, m ∈ applyOp tbl (MembershipOp.rejoin oldId newId) →
      m ∉ tbl →
      m.id = newId ∧ m.id ∉ nodeIds tbl ∧
        ∃ old ∈ tbl, old.id = oldId ∧ old.st = LivenessState.dead ∧
          old.inc < m.inc) := by
  obtain ⟨h1, h2⟩ := foldl_applyOp_preserves ops tbl hnd
  exact ⟨h1, h2, fun oldId newId m hm hnot => rejoin_fresh tbl oldId newId m hm hnot⟩

/-- Witness for C4 at a concrete table and operation sequence. -/
theorem C4_identity_witness :
    (nodeIds ([MembershipOp.suspectNode 1, MembershipOp.refute 1,
      MembershipOp.join 2].foldl applyOp [⟨1, 0, LivenessState.alive⟩])).Nodup :=
  (C4_identity_and_incarnation
    [MembershipOp.suspectNode 1, MembershipOp.refute 1, MembershipOp.join 2]
    [⟨1, 0, LivenessState.alive⟩] (by decide)).1

/-- C5: conflict resolution between the local entry and an incoming report —
the strictly higher incarnation number wins in either direction; with equal
incarnations the winner is the state of higher precedence in the order
DEAD > SUSPECT > ALIVE, the local entry standing when its precedence is at
least the report's. -/
theorem C5_conflict_resolution (round : Nat) (e : ViewEntry) (r : GossipReport) :
    (e.inc < r.inc →
      (handleGossip round e r).st = r.st ∧ (handleGossip round e r).inc = r.inc) ∧
    (r.inc < e.inc → handleGossip round e r = e) ∧
    (e.inc = r.inc →
      (statePrec e.st < statePrec r.st → (handleGossip round e r).st = r.st) ∧
      (statePrec r.st ≤ statePrec e.st → handleGossip round e r = e)) := by
  refine ⟨?_, ?_, ?_⟩
  · intro h
    unfold handleGossip
    rw [if_pos (Or.inl h)]
    exact ⟨rfl, rfl⟩
  · intro h
    unfold handleGossip
    rw [if_neg]
    rintro (h1 | ⟨h1, _⟩) <;> omega
  · intro heq
    constructor
    · intro hp
      unfold handleGossip
      rw [if_pos (Or.inr ⟨heq, hp⟩)]
    · intro hp
      unfold handleGossip
      rw [if_neg]
      rintro (h1 | ⟨_, h2⟩) <;> omega

/-- Witness for C5 at concrete conflicting reports. -/
theorem C5_conflict_witness :
    (handleGossip 9 ⟨LivenessState.suspect, 3, 7⟩ ⟨LivenessState.alive, 4⟩).st =
        LivenessState.alive ∧
      handleGossip 9 ⟨LivenessState.dead, 3, 7⟩ ⟨LivenessState.suspect, 3⟩ =
        ⟨LivenessState.dead, 3, 7⟩ :=
  ⟨((C5_conflict_resolution 9 ⟨LivenessState.suspect, 3, 7⟩
      ⟨LivenessState.alive, 4⟩).1 (by decide)).1,
   ((C5_conflict_resolution 9 ⟨LivenessState.dead, 3, 7⟩
      ⟨LivenessState.suspect, 3⟩).2.2 rfl).2 (by decide)⟩

/-- C6 counterexample: with equal starting load 0 on capacities {4, 6, 2}
(ids 4, 6, 2), the stated algorithm distributes the 3 replicas uniformly —
nodes of equal ratio 0 tie, and the fixed id order places one replica on each
node — not as the claimed {node-6: 2, node-4: 1, node-2: 0}. -/
theorem C6_counterexample_zero_load :
    evaluateSchedule [⟨4, 4, 0, 0⟩, ⟨6, 6, 0, 0⟩, ⟨2, 2, 0, 0⟩] 3 =
        some [⟨4, 4, 0, 1⟩, ⟨6, 6, 0, 1⟩, ⟨2, 2, 0, 1⟩] ∧
      ¬ evaluateSchedule [⟨4, 4, 0, 0⟩, ⟨6, 6, 0, 0⟩, ⟨2, 2, 0, 0⟩] 3 =
        some [⟨4, 4, 0, 1⟩, ⟨6, 6, 0, 2⟩, ⟨2, 2, 0, 0⟩] := by
  decide

/-- C6 amended: with an equal positive starting load of 1 per node, the
least-loaded-first rule on capacities {4, 6, 2} and a request of 3 replicas
yields exactly the distribution {node-6: 2, node-4: 1, node-2: 0}. -/
theorem C6_least_loaded_distribution :
    evaluateSchedule [⟨4, 4, 1, 0⟩, ⟨6, 6, 1, 0⟩, ⟨2, 2, 1, 0⟩] 3 =
      some [⟨4, 4, 1, 1⟩, ⟨6, 6, 1, 2⟩, ⟨2, 2, 1, 0⟩] := by
  decide

/-- C7: for every input, `addImage` and `removeImage` return normally (no
exception reaches the caller); whenever a contract write was attempted, the
returned state has `isProcessing` reset to `false` (success or failure), and
a write failure surfaces as the error-description message. -/
theorem C7_errors_degrade_not_crash (ca wa : Bool) (w : WriteResult)
    (s : HookState) :
    (addImage ca wa w s).isOk = true ∧ (removeImage ca wa w s).isOk = true ∧
    (ca = true → wa = true →
      ((addImage ca wa w s).toOption.map HookState.isProcessing = some false ∧
       (removeImage ca wa w s).toOption.map HookState.isProcessing = some false) ∧
      ∀ m, w = WriteResult.err m →
        (addImage ca wa w s).toOption.map HookState.message =
          some ("Error: " ++ m.getD "Failed to add image") ∧
        (removeImage ca wa w s).toOption.map HookState.message =
          some ("Error: " ++ m.getD "Failed to remove image")) := by
  cases ca <;> cases wa <;> cases w <;>
    simp [addImage, removeImage, Except.isOk, Except.toBool, Except.toOption]

/-- Witness for C7 at a concrete failing write. -/
theorem C7_errors_witness :
    (addImage true true (WriteResult.err (some "boom"))
        ⟨"", false, 0, 0⟩).isOk = true ∧
      (addImage true true (WriteResult.err (some "boom"))
        ⟨"", false, 0, 0⟩).toOption.map HookState.isProcessing = some false :=
  ⟨(C7_errors_degrade_not_crash true true (WriteResult.err (some "boom"))
      ⟨"", false, 0, 0⟩).1,
   (((C7_errors_degrade_not_crash true true (WriteResult.err (some "boom"))
      ⟨"", false, 0, 0⟩).2.2 rfl rfl).1).1⟩

/-- C8: when the contract info or the write function is unavailable, both
actions return immediately with the message set to "Contract not available"
and every other piece of state — `isProcessing`, `refreshTrigger`, and the
count of submitted write calls — unchanged. -/
theorem C8_unavailable_contract_branch (ca wa : Bool) (w : WriteResult)
    (s : HookState) (h : ¬ (ca = true ∧ wa = true)) :
    addImage ca wa w s = Except.ok { s with message := "Contract not available" } ∧
    removeImage ca wa w s =
      Except.ok { s with message := "Contract not available" } := by
  have hb : (ca && wa) = false := by
    cases ca <;> cases wa <;> simp_all
  constructor <;> simp [addImage, removeImage, hb]

/-- Witness for C8 at a concrete unavailable contract. -/
theorem C8_unavailable_witness :
    addImage false true (WriteResult.ok "0x1") ⟨"m", true, 3, 7⟩ =
        Except.ok ⟨"Contract not available", true, 3, 7⟩ ∧
      removeImage false true (WriteResult.ok "0x1") ⟨"m", true, 3, 7⟩ =
        Except.ok ⟨"Contract not available", true, 3, 7⟩ :=
  C8_unavailable_contract_branch false true (WriteResult.ok "0x1")
    ⟨"m", true, 3, 7⟩ (by simp)

/-- C9: the exposed counts are always defined natural numbers — an undefined
or zero on-chain read is exposed as 0, and any other count is exposed as its
numeric conversion. -/
theorem C9_counts_always_defined :
    exposedCount none = 0 ∧ exposedCount (some 0) = 0 ∧
      ∀ n : Nat, exposedCount (some n) = n := by
  refine ⟨rfl, rfl, fun n => ?_⟩
  cases n with
  | zero => rfl
  | succ k => simp [exposedCount]

/-- C10: with a defined contract and a non-zero members count `c`, the fetched
members list is exactly the placeholder list: its length is `c` and entry `i`
is the literal string `"Member i"`; the function reads no on-chain member
identities (it depends only on the count). -/
theorem C10_members_are_placeholders (c : Nat) (hc : c ≠ 0) :
    fetchMembers true (some c) =
        some ((List.range c).map (fun i => "Member " ++ toString i)) ∧
      ((List.range c).map (fun i => "Member " ++ toString i)).length = c ∧
      ∀ i, i < c →
        ((List.range c).map (fun j => "Member " ++ toString j))[i]? =
          some ("Member " ++ toString i) := by
  refine ⟨?_, ?_, ?_⟩
  · simp [fetchMembers, hc]
  · simp
  · intro i hi
    simp [List.getElem?_map, List.getElem?_range, hi]

/-- Witness for C10 at a concrete count of 2. -/
theorem C10_members_witness :
    fetchMembers true (some 2) =
        some ((List.range 2).map (fun i => "Member " ++ toString i)) ∧
      ((List.range 2).map (fun j => "Member " ++ toString j))[1]? =
        some ("Member " ++ toString 1) :=
  ⟨(C10_members_are_placeholders 2 (by decide)).1,
   (C10_members_are_placeholders 2 (by decide)).2.2 1 (by decide)⟩

end Canteen
